import Mathlib

/-!
Scoring engine of aeacus (`pkg/scoring/scoring.go`)

A shallow embedding of `scoreCheck`, `assignPoints` and `scoreChecks`.

Conventions of the embedding:

* Go `int` is the 64-bit two's-complement integer: a value is an `Int` and
  every addition, subtraction and multiplication on points, scores and
  totals is followed by `wrap`, which reduces the result into
  `[-2^63, 2^63)`.  Slice indices and the counter `ScoredVulns` are bounded
  by the length of the check slice and are written without `wrap`.
* The package-level `mc.Config.Check` and `mc.Image` are passed explicitly:
  a function that mutates them returns the new values.
* A run-time panic (slice index out of range) and a loop that would not
  finish within its iteration budget are both the result `none`.
* The goroutine fan-out of `scoreChecks` (lines 92-98) is not modelled.
  `sequentialPass` is the run in which `scoreCheck` is applied to the checks
  one after another in list order; statements about it are statements about
  that run only.
* Printing (`InfoPrint`, `PassPrint`, `FailPrint`) has no effect on the
  values computed and is left out.
-/

namespace Aeacus

/-- Modelled from the spec: the type `condition` is declared outside
`scoring.go`; its four string fields are read at lines 115, 135 and 145
(`Type` is spelled `Typ`, the former being reserved). -/
structure condition where
  Typ : String
  Arg1 : String
  Arg2 : String
  Arg3 : String
deriving DecidableEq, Repr

/-- Modelled from the spec: the type `check` is declared outside
`scoring.go`; these are the fields the file reads and writes. -/
structure check where
  Message : String
  Points : Int
  Pass : List condition
  PassOverride : List condition
  Fail : List condition
deriving DecidableEq, Repr

/-- Modelled from the spec: the type `scoreItem` is declared outside
`scoring.go`; it is built positionally at lines 159 and 168. -/
structure scoreItem where
  Message : String
  Points : Int
deriving DecidableEq, Repr

/-- Modelled from the spec: the type `imageData` is declared outside
`scoring.go`; these are the fields the scoring code touches.  The zero
value `imageData{}` is `{}`. -/
structure imageData where
  Score : Int := 0
  Contribs : Int := 0
  Detracts : Int := 0
  TotalPoints : Int := 0
  ScoredVulns : Int := 0
  Points : List scoreItem := []
  Penalties : List scoreItem := []
deriving DecidableEq, Repr

/-- Modelled from the spec: `processCheckWrapper` is defined outside
`scoring.go`.  Following the spec it is an opaque, side-effect-free
capability from a condition to a boolean; the engine takes it as a
parameter. -/
abbrev Evaluator := condition → Bool

/-! ## Go `int` -/

/-- The smallest Go `int`, `math.MinInt64`. -/
def minInt : Int := -9223372036854775808

/-- The largest Go `int`, `math.MaxInt64`. -/
def maxInt : Int := 9223372036854775807

/-- The value a Go `int` holds after an arithmetic operation whose exact
result is `x`: the representative of `x` modulo `2^64` in `[-2^63, 2^63)`. -/
def wrap (x : Int) : Int :=
  (x + 9223372036854775808) % 18446744073709551616 - 9223372036854775808

/-! ## `scoreCheck` -/

/-- Lines 123-128: `status = status && result`, leaving the loop as soon as
`status` is false. -/
def passLoop : List Bool → Bool → Bool
  | [], status => status
  | result :: rest, status =>
    let status := status && result
    if !status then status else passLoop rest status

/-- Lines 134-143: the `PassOverride` loop.  Returns the status after the
loop and the conditions handed to the evaluator, in call order. -/
def overrideLoop (ev : Evaluator) : List condition → Bool → Bool × List condition
  | [], status => (status, [])
  | c :: rest, status =>
    if ev c then (true, [c])
    else
      let r := overrideLoop ev rest status
      (r.1, c :: r.2)

/-- Lines 144-153: the `Fail` loop.  Returns the status after the loop and
the conditions handed to the evaluator, in call order. -/
def failLoop (ev : Evaluator) : List condition → Bool → Bool × List condition
  | [], status => (status, [])
  | c :: rest, status =>
    if ev c then (false, [c])
    else
      let r := failLoop ev rest status
      (r.1, c :: r.2)

/-- Lines 112-153 of `scoreCheck`: the value of the local `status` when
line 154 is reached, and the conditions handed to the evaluator, in call
order. -/
def checkStatus (ev : Evaluator) (c : check) : Bool × List condition :=
  -- lines 113-120: every Pass condition is evaluated
  let passStatus := c.Pass.map ev
  let status := passLoop passStatus true
  let o := overrideLoop ev c.PassOverride status
  let f := failLoop ev c.Fail o.1
  (f.1, c.Pass ++ o.2 ++ f.2)

/-- Lines 110-173: `scoreCheck`, as a function from `mc.Image` before the
call to `mc.Image` after it. -/
def scoreCheck (ev : Evaluator) (im : imageData) (c : check) : imageData :=
  let status := (checkStatus ev c).1
  if c.Points ≥ 0 then
    if status then
      { im with
        Points := im.Points ++ [⟨c.Message, c.Points⟩]
        Score := wrap (im.Score + c.Points)
        Contribs := wrap (im.Contribs + c.Points) }
    else im
  else
    if status then
      { im with
        Penalties := im.Penalties ++ [⟨c.Message, c.Points⟩]
        Score := wrap (im.Score + c.Points)
        Detracts := wrap (im.Detracts + c.Points) }
    else im

/-! ## `assignPoints` -/

/-- Lines 180-188: the first loop of `assignPoints`.  `i` is the index of
the head of the remaining list, `pc` is `pointlessChecks` so far.
`ScoredVulns++` is written without `wrap`: the counter starts at 0 (line 89)
and is raised at most once per element of a slice, whose length is itself
an `int`. -/
def scanChecks : List check → Nat → List Nat → imageData → List Nat × imageData
  | [], _, pc, im => (pc, im)
  | c :: rest, i, pc, im =>
    if c.Points = 0 then
      scanChecks rest (i + 1) (pc ++ [i]) { im with ScoredVulns := im.ScoredVulns + 1 }
    else if c.Points > 0 then
      scanChecks rest (i + 1) pc
        { im with
          TotalPoints := wrap (im.TotalPoints + c.Points)
          ScoredVulns := im.ScoredVulns + 1 }
    else
      scanChecks rest (i + 1) pc im

/-- The assignment `mc.Config.Check[idx].Points = v`; `none` when `idx` is
out of range. -/
def setPoints (cs : List check) (idx : Nat) (v : Int) : Option (List check) :=
  match cs[idx]? with
  | none => none
  | some c => some (cs.set idx { c with Points := v })

/-- The statement `mc.Config.Check[idx].Points++`; `none` when `idx` is out
of range. -/
def incPoints (cs : List check) (idx : Nat) : Option (List check) :=
  match cs[idx]? with
  | none => none
  | some c => some (cs.set idx { c with Points := wrap (c.Points + 1) })

/-- Lines 195-197 and 200-202: every check listed in `pointlessChecks` gets
the value `v`. -/
def assignAll : List Nat → Int → List check → Option (List check)
  | [], _, cs => some cs
  | idx :: rest, v, cs =>
    match setPoints cs idx v with
    | none => none
    | some cs => assignAll rest v cs

/-- Lines 205-211: the remainder loop, with `i` and `mc.Image.TotalPoints`
as loop variables.  The first argument bounds the number of iterations;
`none` when it is used up while the loop condition still holds, or when an
index is out of range. -/
def remainderLoop : Nat → List Nat → Nat → Int → List check → Option (List check × Int)
  | fuel, pc, i, total, cs =>
    if total < 100 then
      match fuel with
      | 0 => none
      | fuel + 1 =>
        match pc[i]? with
        | none => none
        | some idx =>
          match incPoints cs idx with
          | none => none
          | some cs =>
            let i := i + 1
            let i := if (i : Int) > (pc.length : Int) - 1 then 0 else i
            remainderLoop fuel pc i (wrap (total + 1)) cs
    else some (cs, total)

/-- Lines 177-215: `assignPoints`, from `mc.Config.Check` and `mc.Image`
before the call to their values after it.  The divisor at line 199 is
positive, so the truncating division cannot overflow. -/
def assignPoints (cs : List check) (im : imageData) : Option (List check × imageData) :=
  let (pointlessChecks, im) := scanChecks cs 0 [] im
  let pointsLeft := wrap (100 - im.TotalPoints)
  if (pointsLeft ≤ 0 ∧ pointlessChecks.length > 0) ∨ pointlessChecks.length > 100 then
    match assignAll pointlessChecks 3 cs with
    | none => none
    | some cs => some (cs, im)
  else if pointsLeft > 0 ∧ pointlessChecks.length > 0 then
    let pointsEach := Int.tdiv pointsLeft (pointlessChecks.length : Int)
    match assignAll pointlessChecks pointsEach cs with
    | none => none
    | some cs =>
      let total := wrap (im.TotalPoints + wrap (pointsEach * (pointlessChecks.length : Int)))
      if total < 100 then
        match remainderLoop (100 - total).toNat pointlessChecks 0 total cs with
        | none => none
        | some (cs, total) =>
          some (cs, { im with TotalPoints := wrap (total + wrap (100 - total)) })
      else some (cs, { im with TotalPoints := total })
  else some (cs, im)

/-! ## The sequential scoring pass -/

/-- The sequential scoring pass: `mc.Image` is reset (line 89),
`assignPoints` runs (line 90), then `scoreCheck` is applied to every check,
one after another in list order.  This is the sequential fold only; it is
not the goroutine fan-out of lines 92-98, in which the calls of `scoreCheck`
run unsynchronised. -/
def sequentialPass (ev : Evaluator) (cs : List check) : Option (List check × imageData) :=
  match assignPoints cs {} with
  | none => none
  | some (cs, im) => some (cs, cs.foldl (scoreCheck ev) im)

/-! ## Auxiliary notions used in the statements -/

/-- A check with the given points, no message and no conditions. -/
def pts (p : Int) : check := ⟨"", p, [], [], []⟩

/-- Sum of `Points` over the checks whose `Points` is positive. -/
def posTotal (cs : List check) : Int :=
  ((cs.filter (fun c => decide (c.Points > 0))).map check.Points).sum

/-- Number of checks with `Points = 0` (the unassigned checks). -/
def zeros (cs : List check) : Nat :=
  cs.countP (fun c => decide (c.Points = 0))

/-- Gives the value `v` to an unassigned check and leaves any other check
as it is. -/
def fill (v : Int) (c : check) : check :=
  if c.Points = 0 then { c with Points := v } else c

/-- Indices of the unassigned checks of a list whose head has index `i`,
in increasing order. -/
def zeroIdx : List check → Nat → List Nat
  | [], _ => []
  | c :: rest, i => if c.Points = 0 then i :: zeroIdx rest (i + 1) else zeroIdx rest (i + 1)

/-- Number of checks with `Points >= 0` (the checks that take part in
scoring). -/
def scored (cs : List check) : Nat :=
  cs.countP (fun c => decide (c.Points ≥ 0))

/-- The value of `mc.Image.TotalPoints` after the first loop of
`assignPoints` (line 185), started at `t`: the positive `Points` added one
by one in Go arithmetic. -/
def scanTotal : Int → List check → Int
  | t, [] => t
  | t, c :: rest => if c.Points > 0 then scanTotal (wrap (t + c.Points)) rest else scanTotal t rest

/-- An evaluator that accepts exactly the conditions of type `"yes"`. -/
def evYes : Evaluator := fun x => x.Typ == "yes"

/-- A condition of the given type with empty arguments. -/
def cond (t : String) : condition := ⟨t, "", "", ""⟩

/-- The even distribution in closed form: walking the list in order, the
first `r` unassigned checks get `q + 1`, the remaining unassigned checks get
`q`, every other check is left as it is. -/
def spread (q : Int) : Nat → List check → List check
  | _, [] => []
  | r, c :: rest =>
    if c.Points = 0 then
      { c with Points := if 0 < r then q + 1 else q } :: spread q (r - 1) rest
    else c :: spread q r rest

/-- The statement `mc.Config.Check[idx].Points++` for each listed index in
turn; `none` when an index is out of range. -/
def incAll : List Nat → List check → Option (List check)
  | [], cs => some cs
  | idx :: rest, cs =>
    match incPoints cs idx with
    | none => none
    | some cs => incAll rest cs

/-- What `assignPoints` may change in a check: nothing but `Points`, and
`Points` only where it was zero. -/
def sameBut (c d : check) : Prop :=
  d.Message = c.Message ∧ d.Pass = c.Pass ∧ d.PassOverride = c.PassOverride ∧
    d.Fail = c.Fail ∧ (c.Points ≠ 0 → d.Points = c.Points)

/-- The conditions of a group up to and including the first one that
evaluates true; the whole group when none does. -/
def uptoFirstTrue (ev : Evaluator) (l : List condition) : List condition :=
  l.take ((l.takeWhile (fun x => !ev x)).length + 1)

/-- What one check adds to `Contribs`: its `Points` when they are not
negative and its status is true, nothing otherwise. -/
def gain (ev : Evaluator) (c : check) : Int :=
  if c.Points ≥ 0 ∧ (checkStatus ev c).1 = true then c.Points else 0

/-- Two score states that agree up to the order of their ledgers. -/
def sameUpToOrder (a b : imageData) : Prop :=
  a.Score = b.Score ∧ a.Contribs = b.Contribs ∧ a.Detracts = b.Detracts ∧
    a.TotalPoints = b.TotalPoints ∧ a.ScoredVulns = b.ScoredVulns ∧
    a.Points.Perm b.Points ∧ a.Penalties.Perm b.Penalties

/-- The ledgers account for the totals: `Contribs` and `Detracts` are the
sums of the two ledgers in Go arithmetic, rewards are not negative,
penalties are negative. -/
def ledgersAgree (im : imageData) : Prop :=
  im.Contribs = wrap (im.Points.map scoreItem.Points).sum ∧
    im.Detracts = wrap (im.Penalties.map scoreItem.Points).sum ∧
    (∀ x ∈ im.Points, 0 ≤ x.Points) ∧ (∀ x ∈ im.Penalties, x.Points < 0)

/-! ## The status computed by `scoreCheck` -/

theorem passLoop_eq (l : List Bool) (s : Bool) : passLoop l s = (s && l.all id) := by
  induction l generalizing s with
  | nil => simp [passLoop]
  | cons r rest ih =>
    cases s <;> cases r <;> simp [passLoop, ih]

theorem overrideLoop_fst (ev : Evaluator) (l : List condition) (s : Bool) :
    (overrideLoop ev l s).1 = (s || l.any ev) := by
  induction l with
  | nil => simp [overrideLoop]
  | cons c rest ih =>
    by_cases h : ev c = true
    · simp [overrideLoop, h]
    · simp [overrideLoop, h, ih]

theorem failLoop_fst (ev : Evaluator) (l : List condition) (s : Bool) :
    (failLoop ev l s).1 = (s && !l.any ev) := by
  induction l with
  | nil => simp [failLoop]
  | cons c rest ih =>
    by_cases h : ev c = true
    · simp [failLoop, h]
    · simp [failLoop, h, ih]

/-- The status of a check in closed form: Fail beats PassOverride beats
Pass. -/
theorem checkStatus_fst (ev : Evaluator) (c : check) :
    (checkStatus ev c).1
      = ((c.Pass.all ev || c.PassOverride.any ev) && !c.Fail.any ev) := by
  have hmap : ∀ l : List condition, (l.map ev).all id = l.all ev := by
    intro l
    induction l with
    | nil => rfl
    | cons x rest ih => simp [ih]
  simp [checkStatus, passLoop_eq, overrideLoop_fst, failLoop_fst, hmap]

/-- C3: when some Fail condition evaluates true, the status computed by
scoreCheck is false and the check leaves the score state as it was,
whatever Pass and PassOverride evaluate to. -/
theorem fail_true_status_false (ev : Evaluator) (c : check)
    (h : ∃ x ∈ c.Fail, ev x = true) :
    (checkStatus ev c).1 = false ∧ ∀ im, scoreCheck ev im c = im := by
  have hs : (checkStatus ev c).1 = false := by
    rw [checkStatus_fst]
    have : c.Fail.any ev = true := List.any_eq_true.mpr h
    simp [this]
  refine ⟨hs, fun im => ?_⟩
  simp [scoreCheck, hs]

theorem fail_true_status_false_witness :
    (∃ x ∈ (check.mk "m" 5 [cond "yes"] [cond "yes"] [cond "no", cond "yes"]).Fail,
        evYes x = true) ∧
    ((checkStatus evYes (check.mk "m" 5 [cond "yes"] [cond "yes"] [cond "no", cond "yes"])).1
        = false ∧
      ∀ im, scoreCheck evYes im
        (check.mk "m" 5 [cond "yes"] [cond "yes"] [cond "no", cond "yes"]) = im) :=
  ⟨⟨cond "yes", by decide, by decide⟩,
   fail_true_status_false evYes _ ⟨cond "yes", by decide, by decide⟩⟩

/-- C4: when some PassOverride condition evaluates true and no Fail
condition does, the status computed by scoreCheck is true, whatever the
Pass conditions evaluate to. -/
theorem override_true_status_true (ev : Evaluator) (c : check)
    (ho : ∃ x ∈ c.PassOverride, ev x = true)
    (hf : ∀ x ∈ c.Fail, ev x = false) :
    (checkStatus ev c).1 = true := by
  rw [checkStatus_fst]
  have h1 : c.PassOverride.any ev = true := List.any_eq_true.mpr ho
  have h2 : c.Fail.any ev = false := by
    rw [List.any_eq_false]
    intro x hx
    simp [hf x hx]
  simp [h1, h2]

theorem override_true_status_true_witness :
    (∃ x ∈ (check.mk "m" 5 [cond "no"] [cond "no", cond "yes"] [cond "no"]).PassOverride,
        evYes x = true) ∧
    (∀ x ∈ (check.mk "m" 5 [cond "no"] [cond "no", cond "yes"] [cond "no"]).Fail,
        evYes x = false) ∧
    (checkStatus evYes (check.mk "m" 5 [cond "no"] [cond "no", cond "yes"] [cond "no"])).1
        = true :=
  ⟨⟨cond "yes", by decide, by decide⟩, by decide,
   override_true_status_true evYes _ ⟨cond "yes", by decide, by decide⟩ (by decide)⟩

/-- C5: when no PassOverride condition and no Fail condition evaluates true,
the status computed by scoreCheck is true exactly when every Pass condition
evaluates true; with an empty Pass list the status is true. -/
theorem pass_only_status_iff (ev : Evaluator) (c : check)
    (ho : ∀ x ∈ c.PassOverride, ev x = false)
    (hf : ∀ x ∈ c.Fail, ev x = false) :
    ((checkStatus ev c).1 = true ↔ ∀ x ∈ c.Pass, ev x = true) ∧
    (c.Pass = [] → (checkStatus ev c).1 = true) := by
  have h1 : c.PassOverride.any ev = false := by
    rw [List.any_eq_false]
    intro x hx
    simp [ho x hx]
  have h2 : c.Fail.any ev = false := by
    rw [List.any_eq_false]
    intro x hx
    simp [hf x hx]
  have key : (checkStatus ev c).1 = c.Pass.all ev := by
    rw [checkStatus_fst]
    simp [h1, h2]
  refine ⟨?_, ?_⟩
  · rw [key, List.all_eq_true]
  · intro he
    rw [key, he]
    rfl

theorem pass_only_status_iff_witness :
    (∀ x ∈ (check.mk "m" 5 [cond "yes", cond "no"] [cond "no"] []).PassOverride,
        evYes x = false) ∧
    (∀ x ∈ (check.mk "m" 5 [cond "yes", cond "no"] [cond "no"] []).Fail,
        evYes x = false) ∧
    (((checkStatus evYes (check.mk "m" 5 [cond "yes", cond "no"] [cond "no"] [])).1 = true ↔
        ∀ x ∈ (check.mk "m" 5 [cond "yes", cond "no"] [cond "no"] []).Pass, evYes x = true) ∧
      ((check.mk "m" 5 [cond "yes", cond "no"] [cond "no"] []).Pass = [] →
        (checkStatus evYes (check.mk "m" 5 [cond "yes", cond "no"] [cond "no"] [])).1 = true)) :=
  ⟨by decide, by decide, pass_only_status_iff evYes _ (by decide) (by decide)⟩

/-! ## Go arithmetic -/

theorem wrap_eq_self (x : Int) (h1 : minInt ≤ x) (h2 : x ≤ maxInt) : wrap x = x := by
  unfold wrap
  unfold minInt at h1
  unfold maxInt at h2
  omega

theorem wrap_bounds (x : Int) : minInt ≤ wrap x ∧ wrap x ≤ maxInt := by
  unfold wrap minInt maxInt
  omega

theorem wrap_add_left (a b : Int) : wrap (wrap a + b) = wrap (a + b) := by
  unfold wrap
  omega

theorem wrap_add_right (a b : Int) : wrap (a + wrap b) = wrap (a + b) := by
  unfold wrap
  omega

theorem wrap_wrap (a : Int) : wrap (wrap a) = wrap a := by
  unfold wrap
  omega

/-! ## The effect of `scoreCheck` on the score state -/

/-- C8: a penalty check (Points < 0) whose status is true adds its Points
to Score and to Detracts in Go arithmetic, that is with wrap-around at 64
bits, and appends its item to Penalties; Contribs, the Points ledger,
TotalPoints and ScoredVulns stay as they were.  Where the exact sum lies in
the range of a Go int, Score and Detracts are that sum. -/
theorem scoreCheck_penalty_wrapped (ev : Evaluator) (s : imageData) (c : check)
    (hp : c.Points < 0) (hs : (checkStatus ev c).1 = true) :
    scoreCheck ev s c =
      { Score := wrap (s.Score + c.Points)
        Contribs := s.Contribs
        Detracts := wrap (s.Detracts + c.Points)
        TotalPoints := s.TotalPoints
        ScoredVulns := s.ScoredVulns
        Points := s.Points
        Penalties := s.Penalties ++ [⟨c.Message, c.Points⟩] } ∧
    (minInt ≤ s.Score + c.Points → s.Score + c.Points ≤ maxInt →
      (scoreCheck ev s c).Score = s.Score + c.Points) ∧
    (minInt ≤ s.Detracts + c.Points → s.Detracts + c.Points ≤ maxInt →
      (scoreCheck ev s c).Detracts = s.Detracts + c.Points) := by
  have hn : ¬ c.Points ≥ 0 := by omega
  have heq : scoreCheck ev s c =
      { Score := wrap (s.Score + c.Points)
        Contribs := s.Contribs
        Detracts := wrap (s.Detracts + c.Points)
        TotalPoints := s.TotalPoints
        ScoredVulns := s.ScoredVulns
        Points := s.Points
        Penalties := s.Penalties ++ [⟨c.Message, c.Points⟩] } := by
    simp [scoreCheck, hs, hn]
  refine ⟨heq, ?_, ?_⟩
  · intro h1 h2
    rw [heq]
    exact wrap_eq_self _ h1 h2
  · intro h1 h2
    rw [heq]
    exact wrap_eq_self _ h1 h2

theorem scoreCheck_penalty_wrapped_witness :
    (check.mk "pen" (-10) [cond "yes"] [] []).Points < 0 ∧
    (checkStatus evYes (check.mk "pen" (-10) [cond "yes"] [] [])).1 = true ∧
    (scoreCheck evYes {} (check.mk "pen" (-10) [cond "yes"] [] []) =
      { Score := wrap ((0 : Int) + (-10)), Contribs := 0, Detracts := wrap ((0 : Int) + (-10)),
        TotalPoints := 0, ScoredVulns := 0,
        Points := [], Penalties := [] ++ [⟨"pen", -10⟩] } ∧
    (minInt ≤ (0 : Int) + (-10) → (0 : Int) + (-10) ≤ maxInt →
      (scoreCheck evYes {} (check.mk "pen" (-10) [cond "yes"] [] [])).Score = (0 : Int) + (-10)) ∧
    (minInt ≤ (0 : Int) + (-10) → (0 : Int) + (-10) ≤ maxInt →
      (scoreCheck evYes {} (check.mk "pen" (-10) [cond "yes"] [] [])).Detracts
        = (0 : Int) + (-10))) :=
  ⟨by decide, by decide, scoreCheck_penalty_wrapped evYes {} _ (by decide) (by decide)⟩

/-- With Score = Detracts = MinInt64 a passing penalty of -1 leaves
Score = Detracts = MaxInt64, not the exact sum MinInt64 - 1. -/
theorem scoreCheck_penalty_overflow :
    (check.mk "pen" (-1) [] [] []).Points < 0 ∧
    (checkStatus evYes (check.mk "pen" (-1) [] [] [])).1 = true ∧
    (scoreCheck evYes { Score := minInt, Detracts := minInt }
        (check.mk "pen" (-1) [] [] [])).Score = maxInt ∧
    (scoreCheck evYes { Score := minInt, Detracts := minInt }
        (check.mk "pen" (-1) [] [] [])).Score ≠ minInt + (-1) ∧
    (scoreCheck evYes { Score := minInt, Detracts := minInt }
        (check.mk "pen" (-1) [] [] [])).Detracts ≠ minInt + (-1) := by
  decide

/-- C9: a reward check (Points >= 0) whose status is true adds its Points
to Score and to Contribs in Go arithmetic, that is with wrap-around at 64
bits, and appends its item to the Points ledger; Detracts, Penalties,
TotalPoints and ScoredVulns stay as they were.  Where the exact sum lies in
the range of a Go int, Score and Contribs are that sum. -/
theorem scoreCheck_reward_wrapped (ev : Evaluator) (s : imageData) (c : check)
    (hp : c.Points ≥ 0) (hs : (checkStatus ev c).1 = true) :
    scoreCheck ev s c =
      { Score := wrap (s.Score + c.Points)
        Contribs := wrap (s.Contribs + c.Points)
        Detracts := s.Detracts
        TotalPoints := s.TotalPoints
        ScoredVulns := s.ScoredVulns
        Points := s.Points ++ [⟨c.Message, c.Points⟩]
        Penalties := s.Penalties } ∧
    (minInt ≤ s.Score + c.Points → s.Score + c.Points ≤ maxInt →
      (scoreCheck ev s c).Score = s.Score + c.Points) ∧
    (minInt ≤ s.Contribs + c.Points → s.Contribs + c.Points ≤ maxInt →
      (scoreCheck ev s c).Contribs = s.Contribs + c.Points) := by
  have heq : scoreCheck ev s c =
      { Score := wrap (s.Score + c.Points)
        Contribs := wrap (s.Contribs + c.Points)
        Detracts := s.Detracts
        TotalPoints := s.TotalPoints
        ScoredVulns := s.ScoredVulns
        Points := s.Points ++ [⟨c.Message, c.Points⟩]
        Penalties := s.Penalties } := by
    simp [scoreCheck, hs, hp]
  refine ⟨heq, ?_, ?_⟩
  · intro h1 h2
    rw [heq]
    exact wrap_eq_self _ h1 h2
  · intro h1 h2
    rw [heq]
    exact wrap_eq_self _ h1 h2

theorem scoreCheck_reward_wrapped_witness :
    (check.mk "rew" 7 [cond "yes"] [] []).Points ≥ 0 ∧
    (checkStatus evYes (check.mk "rew" 7 [cond "yes"] [] [])).1 = true ∧
    (scoreCheck evYes {} (check.mk "rew" 7 [cond "yes"] [] []) =
      { Score := wrap ((0 : Int) + 7), Contribs := wrap ((0 : Int) + 7), Detracts := 0,
        TotalPoints := 0, ScoredVulns := 0,
        Points := [] ++ [⟨"rew", 7⟩], Penalties := [] } ∧
    (minInt ≤ (0 : Int) + 7 → (0 : Int) + 7 ≤ maxInt →
      (scoreCheck evYes {} (check.mk "rew" 7 [cond "yes"] [] [])).Score = (0 : Int) + 7) ∧
    (minInt ≤ (0 : Int) + 7 → (0 : Int) + 7 ≤ maxInt →
      (scoreCheck evYes {} (check.mk "rew" 7 [cond "yes"] [] [])).Contribs = (0 : Int) + 7)) :=
  ⟨by decide, by decide, scoreCheck_reward_wrapped evYes {} _ (by decide) (by decide)⟩

/-- With Score = Contribs = MaxInt64 a passing reward of 1 leaves
Score = Contribs = MinInt64, not the exact sum MaxInt64 + 1. -/
theorem scoreCheck_reward_overflow :
    (check.mk "rew" 1 [] [] []).Points ≥ 0 ∧
    (checkStatus evYes (check.mk "rew" 1 [] [] [])).1 = true ∧
    (scoreCheck evYes { Score := maxInt, Contribs := maxInt }
        (check.mk "rew" 1 [] [] [])).Score = minInt ∧
    (scoreCheck evYes { Score := maxInt, Contribs := maxInt }
        (check.mk "rew" 1 [] [] [])).Score ≠ maxInt + 1 ∧
    (scoreCheck evYes { Score := maxInt, Contribs := maxInt }
        (check.mk "rew" 1 [] [] [])).Contribs ≠ maxInt + 1 := by
  decide

/-- C10: a check whose status is false, of any Points sign, leaves the
score state unchanged in every field. -/
theorem scoreCheck_false_unchanged (ev : Evaluator) (s : imageData) (c : check)
    (hs : (checkStatus ev c).1 = false) :
    scoreCheck ev s c = s := by
  simp [scoreCheck, hs]

theorem scoreCheck_false_unchanged_witness :
    (checkStatus evYes (check.mk "rew" 7 [cond "no"] [] [])).1 = false ∧
    scoreCheck evYes ⟨4, 5, -1, 100, 3, [⟨"a", 5⟩], [⟨"b", -1⟩]⟩
        (check.mk "rew" 7 [cond "no"] [] [])
      = ⟨4, 5, -1, 100, 3, [⟨"a", 5⟩], [⟨"b", -1⟩]⟩ :=
  ⟨by decide, scoreCheck_false_unchanged evYes _ _ (by decide)⟩

/-! ## The first loop of `assignPoints` -/

theorem posTotal_nil : posTotal [] = 0 := rfl

theorem posTotal_cons (c : check) (cs : List check) :
    posTotal (c :: cs) = (if c.Points > 0 then c.Points else 0) + posTotal cs := by
  by_cases h : c.Points > 0 <;> simp [posTotal, List.filter_cons, h]

theorem posTotal_append (xs ys : List check) :
    posTotal (xs ++ ys) = posTotal xs + posTotal ys := by
  simp [posTotal]

theorem zeros_cons (c : check) (cs : List check) :
    zeros (c :: cs) = zeros cs + (if c.Points = 0 then 1 else 0) := by
  simp [zeros, List.countP_cons]

theorem scored_cons (c : check) (cs : List check) :
    scored (c :: cs) = scored cs + (if c.Points ≥ 0 then 1 else 0) := by
  simp [scored, List.countP_cons]

theorem posTotal_nonneg (cs : List check) : 0 ≤ posTotal cs := by
  induction cs with
  | nil => simp [posTotal_nil]
  | cons c rest ih =>
    rw [posTotal_cons]
    split <;> omega

/-- The positive points added one by one in Go arithmetic are the exact sum
reduced once. -/
theorem scanTotal_eq_wrap (cs : List check) :
    ∀ t : Int, minInt ≤ t → t ≤ maxInt → scanTotal t cs = wrap (t + posTotal cs) := by
  induction cs with
  | nil =>
    intro t h1 h2
    rw [scanTotal, posTotal_nil, Int.add_zero, wrap_eq_self t h1 h2]
  | cons c rest ih =>
    intro t h1 h2
    rw [scanTotal, posTotal_cons]
    by_cases hp : c.Points > 0
    · rw [if_pos hp, if_pos hp, ih _ (wrap_bounds _).1 (wrap_bounds _).2, wrap_add_left,
        Int.add_assoc]
    · rw [if_neg hp, if_neg hp, ih t h1 h2, Int.zero_add]

theorem scanTotal_bounds (cs : List check) (t : Int) (h1 : minInt ≤ t) (h2 : t ≤ maxInt) :
    minInt ≤ scanTotal t cs ∧ scanTotal t cs ≤ maxInt := by
  rw [scanTotal_eq_wrap cs t h1 h2]
  exact wrap_bounds _

/-- Without overflow the first loop leaves the exact sum. -/
theorem scanTotal_exact (cs : List check) (t : Int) (h1 : minInt ≤ t)
    (h2 : t + posTotal cs ≤ maxInt) : scanTotal t cs = t + posTotal cs := by
  have h0 := posTotal_nonneg cs
  rw [scanTotal_eq_wrap cs t h1 (by omega)]
  exact wrap_eq_self _ (by omega) h2

theorem scanTotal_empty (cs : List check) (h : posTotal cs ≤ maxInt) :
    scanTotal ({} : imageData).TotalPoints cs = posTotal cs := by
  have e : ({} : imageData).TotalPoints = 0 := rfl
  rw [e, scanTotal_exact cs 0 (by decide) (by omega), Int.zero_add]

/-- The first loop collects the indices of the unassigned checks, adds the
positive points to `TotalPoints` and counts the checks with `Points >= 0`. -/
theorem scanChecks_eq (cs : List check) (i : Nat) (pc : List Nat) (im : imageData) :
    scanChecks cs i pc im =
      (pc ++ zeroIdx cs i,
        { im with
          TotalPoints := scanTotal im.TotalPoints cs
          ScoredVulns := im.ScoredVulns + (scored cs : Int) }) := by
  induction cs generalizing i pc im with
  | nil => simp [scanChecks, zeroIdx, scanTotal, scored]
  | cons c rest ih =>
    rw [scanChecks, scanTotal, scored_cons]
    by_cases h0 : c.Points = 0
    · simp [h0, ih, zeroIdx]
      omega
    · by_cases h1 : c.Points > 0
      · have h2 : c.Points ≥ 0 := by omega
        simp [h0, h1, h2, ih, zeroIdx]
        omega
      · have h2 : ¬ c.Points ≥ 0 := by omega
        simp [h0, h1, h2, ih, zeroIdx]

theorem zeroIdx_length (cs : List check) (i : Nat) :
    (zeroIdx cs i).length = zeros cs := by
  induction cs generalizing i with
  | nil => rfl
  | cons c rest ih =>
    rw [zeroIdx, zeros_cons]
    by_cases h0 : c.Points = 0 <;> simp [h0, ih]

theorem zeroIdx_mem (cs : List check) (i idx : Nat) (h : idx ∈ zeroIdx cs i) :
    i ≤ idx ∧ ∃ c, cs[idx - i]? = some c ∧ c.Points = 0 := by
  induction cs generalizing i with
  | nil => simp [zeroIdx] at h
  | cons c rest ih =>
    rw [zeroIdx] at h
    have tail : idx ∈ zeroIdx rest (i + 1) →
        i ≤ idx ∧ ∃ c', (c :: rest)[idx - i]? = some c' ∧ c'.Points = 0 := by
      intro h'
      obtain ⟨hle, c', hc', hp⟩ := ih (i + 1) h'
      refine ⟨by omega, c', ?_, hp⟩
      have : idx - i = (idx - (i + 1)) + 1 := by omega
      rw [this, List.getElem?_cons_succ]
      exact hc'
    by_cases h0 : c.Points = 0
    · simp only [h0, if_true, List.mem_cons] at h
      rcases h with h | h
      · subst h
        exact ⟨le_refl _, c, by simp, h0⟩
      · exact tail h
    · simp only [h0, if_false] at h
      exact tail h

/-! ## Assigning a value to the unassigned checks -/

theorem assignAll_zeroIdx (v : Int) (pre suf : List check) :
    assignAll (zeroIdx suf pre.length) v (pre ++ suf) = some (pre ++ suf.map (fill v)) := by
  induction suf generalizing pre with
  | nil => simp [zeroIdx, assignAll]
  | cons c rest ih =>
    have hlen : (pre ++ [fill v c]).length = pre.length + 1 := by simp
    have hstep := ih (pre ++ [fill v c])
    rw [hlen] at hstep
    rw [zeroIdx]
    by_cases h0 : c.Points = 0
    · have hget : (pre ++ c :: rest)[pre.length]? = some c := by
        rw [List.getElem?_append_right (le_refl _)]
        simp
      have hset : (pre ++ c :: rest).set pre.length { c with Points := v }
          = pre ++ [fill v c] ++ rest := by
        simp [List.set_append, fill, h0]
      simp only [h0, if_true, assignAll, setPoints, hget, hset, hstep]
      simp
    · have hf : fill v c = c := by simp [fill, h0]
      rw [hf] at hstep
      simp only [List.append_assoc, List.singleton_append] at hstep
      simp only [h0, if_false, hstep, List.map_cons, hf]

theorem posTotal_map_fill (v : Int) (hv : 0 ≤ v) (cs : List check) :
    posTotal (cs.map (fill v)) = posTotal cs + v * (zeros cs : Int) := by
  induction cs with
  | nil => simp [posTotal_nil, zeros]
  | cons c rest ih =>
    rw [List.map_cons, posTotal_cons, posTotal_cons, zeros_cons, ih]
    by_cases h0 : c.Points = 0
    · by_cases hv0 : v > 0
      · simp [fill, h0, hv0]
        ring
      · have : v = 0 := by omega
        simp [fill, h0, this]
    · simp [fill, h0]
      ring

/-! ## The even distribution in closed form -/

theorem spread_zero (q : Int) (cs : List check) : spread q 0 cs = cs.map (fill q) := by
  induction cs with
  | nil => rfl
  | cons c rest ih =>
    rw [spread, List.map_cons, Nat.zero_sub, ih]
    by_cases h0 : c.Points = 0 <;> simp [fill, h0]

/-- The remainder loop, as long as it does not run past the end of
`pointlessChecks`, increments the listed checks from position `i` on, one
after the other. -/
theorem remainderLoop_eq_incAll (pc : List Nat) (fuel : Nat) :
    ∀ (i : Nat) (total : Int) (cs : List check),
      minInt ≤ total →
      (100 - total).toNat ≤ fuel →
      ((100 - total).toNat = 0 ∨ i + (100 - total).toNat ≤ pc.length) →
      remainderLoop fuel pc i total cs =
        (incAll ((pc.drop i).take (100 - total).toNat) cs).map
          (fun x => (x, max total 100)) := by
  induction fuel with
  | zero =>
    intro i total cs _ hf _
    have ht : ¬ total < 100 := by omega
    have h0 : (100 - total).toNat = 0 := by omega
    rw [remainderLoop, if_neg ht, h0, List.take_zero, incAll, max_eq_left (by omega)]
    rfl
  | succ n ih =>
    intro i total cs hmin hf hr
    by_cases ht : total < 100
    · have hi : i < pc.length := by omega
      have hr1 : (100 - total).toNat = (100 - (total + 1)).toNat + 1 := by omega
      have hw : wrap (total + 1) = total + 1 :=
        wrap_eq_self _ (by omega) (by unfold maxInt; omega)
      have hidx : pc[i]? = some (pc.get ⟨i, hi⟩) := by
        rw [List.getElem?_eq_getElem hi]
        rfl
      have hdrop : pc.drop i = pc.get ⟨i, hi⟩ :: pc.drop (i + 1) := by
        rw [List.drop_eq_getElem_cons hi]
        rfl
      rw [remainderLoop, if_pos ht]
      simp only [hidx, hw]
      rw [hr1, hdrop, List.take_succ_cons, incAll]
      cases hinc : incPoints cs (pc.get ⟨i, hi⟩) with
      | none => rfl
      | some cs1 =>
        simp only []
        rw [ih _ (total + 1) cs1 (by omega) (by omega) (by split <;> omega)]
        have hmax : max (total + 1) 100 = max total 100 := by
          rw [max_eq_right (by omega), max_eq_right (by omega)]
        rw [hmax]
        by_cases hlast : (100 - (total + 1)).toNat = 0
        · rw [hlast, List.take_zero, List.take_zero]
        · have hnext : (if ((i + 1 : Nat) : Int) > (pc.length : Int) - 1 then 0 else i + 1)
              = i + 1 := by
            rw [if_neg (by omega)]
          rw [hnext]
    · have h0 : (100 - total).toNat = 0 := by omega
      rw [remainderLoop, if_neg ht, h0, List.take_zero, incAll, max_eq_left (by omega)]
      rfl

theorem incAll_take_zeroIdx (q : Int) (hq : wrap (q + 1) = q + 1) (suf : List check) :
    ∀ (pre : List check) (r : Nat),
      incAll ((zeroIdx suf pre.length).take r) (pre ++ suf.map (fill q))
        = some (pre ++ spread q r suf) := by
  induction suf with
  | nil =>
    intro pre r
    simp [zeroIdx, incAll, spread]
  | cons c rest ih =>
    intro pre r
    by_cases h0 : c.Points = 0
    · cases r with
      | zero =>
        rw [List.take_zero, incAll, spread_zero]
      | succ k =>
        have hget : (pre ++ fill q c :: rest.map (fill q))[pre.length]? = some (fill q c) := by
          rw [List.getElem?_append_right (le_refl _)]
          simp
        have hset : (pre ++ fill q c :: rest.map (fill q)).set pre.length
              { fill q c with Points := wrap ((fill q c).Points + 1) }
            = (pre ++ [{ c with Points := q + 1 }]) ++ rest.map (fill q) := by
          simp [List.set_append, fill, h0, hq]
        have hlen : (pre ++ [{ c with Points := q + 1 }]).length = pre.length + 1 := by simp
        have hstep := ih (pre ++ [{ c with Points := q + 1 }]) k
        rw [hlen] at hstep
        rw [zeroIdx, if_pos h0, List.take_succ_cons, List.map_cons, incAll, incPoints]
        simp only [hget, hset, hstep]
        rw [spread, if_pos h0, if_pos (Nat.succ_pos k)]
        simp
    · have hf : fill q c = c := by simp [fill, h0]
      have hlen : (pre ++ [c]).length = pre.length + 1 := by simp
      have hstep := ih (pre ++ [c]) r
      rw [hlen] at hstep
      simp only [List.append_assoc, List.singleton_append] at hstep
      rw [zeroIdx, if_neg h0, List.map_cons, hf, hstep, spread, if_neg h0]

/-- The positive points of a spread list: every unassigned check brings `q`,
and the first `r` of them one more. -/
theorem posTotal_spread (q : Int) (hq : 0 ≤ q) (cs : List check) :
    ∀ r : Nat,
      posTotal (spread q r cs)
        = posTotal cs + q * (zeros cs : Int) + ((min r (zeros cs) : Nat) : Int) := by
  induction cs with
  | nil =>
    intro r
    simp [spread, posTotal_nil, zeros]
  | cons c rest ih =>
    intro r
    rw [spread, posTotal_cons, zeros_cons]
    by_cases h0 : c.Points = 0
    · rw [if_pos h0, posTotal_cons, ih (r - 1)]
      have hmul : q * ((zeros rest + (if c.Points = 0 then 1 else 0) : Nat) : Int)
          = q * (zeros rest : Int) + q := by
        rw [if_pos h0]
        push_cast
        ring
      rw [hmul, if_pos h0]
      by_cases hr : 0 < r
      · have hgt : q + 1 > 0 := by omega
        simp only [hr, if_true, hgt]
        have hmin : ((min r (zeros rest + 1) : Nat) : Int)
            = ((min (r - 1) (zeros rest) : Nat) : Int) + 1 := by omega
        rw [hmin, h0]
        simp only [gt_iff_lt, lt_self_iff_false, if_false]
        omega
      · have hr0 : r = 0 := by omega
        subst hr0
        simp only [lt_self_iff_false, if_false, h0, gt_iff_lt]
        by_cases hq0 : 0 < q
        · simp only [hq0, if_true]
          simp
          omega
        · have : q = 0 := by omega
          subst this
          simp
    · rw [if_neg h0, posTotal_cons, ih r]
      have hmul : q * ((zeros rest + (if c.Points = 0 then 1 else 0) : Nat) : Int)
          = q * (zeros rest : Int) := by
        rw [if_neg h0]
        simp
      rw [hmul, if_neg h0, Nat.add_zero]
      omega
/-! ## The three branches of `assignPoints` -/

theorem assignAll_unassigned (v : Int) (cs : List check) :
    assignAll (zeroIdx cs 0) v cs = some (cs.map (fill v)) := by
  have h := assignAll_zeroIdx v [] cs
  simpa using h

/-- Lines 191-197: the fallback branch gives 3 points to every unassigned
check and does not touch `TotalPoints` again. -/
theorem assignPoints_fallback (cs : List check) (im : imageData)
    (h : (wrap (100 - scanTotal im.TotalPoints cs) ≤ 0 ∧ zeros cs > 0) ∨ zeros cs > 100) :
    assignPoints cs im =
      some (cs.map (fill 3),
        { im with
          TotalPoints := scanTotal im.TotalPoints cs
          ScoredVulns := im.ScoredVulns + (scored cs : Int) }) := by
  unfold assignPoints
  rw [scanChecks_eq]
  simp only [List.nil_append, zeroIdx_length, assignAll_unassigned]
  rw [if_pos h]

/-- Line 214: without unassigned checks nothing is assigned. -/
theorem assignPoints_explicit (cs : List check) (im : imageData) (h : zeros cs = 0) :
    assignPoints cs im =
      some (cs,
        { im with
          TotalPoints := scanTotal im.TotalPoints cs
          ScoredVulns := im.ScoredVulns + (scored cs : Int) }) := by
  have hA : ¬ ((wrap (100 - scanTotal im.TotalPoints cs) ≤ 0 ∧ zeros cs > 0)
      ∨ zeros cs > 100) := by
    omega
  have hB : ¬ (wrap (100 - scanTotal im.TotalPoints cs) > 0 ∧ zeros cs > 0) := by omega
  unfold assignPoints
  rw [scanChecks_eq]
  simp only [List.nil_append, zeroIdx_length, assignAll_unassigned]
  rw [if_neg hA, if_neg hB]

/-- Lines 198-214 in closed form: with `T` the value of `TotalPoints` after
the first loop and `n` the number of unassigned checks, the
even-distribution branch is taken only with `T < 100`; no operation in it
overflows, it returns the check list spread with quotient `(100 - T) / n`
and remainder `(100 - T) % n`, and `TotalPoints = 100`. -/
theorem assignPoints_even_exact (cs : List check) (im : imageData)
    (hmin : minInt ≤ im.TotalPoints) (hmax : im.TotalPoints ≤ maxInt)
    (hpl : 0 < wrap (100 - scanTotal im.TotalPoints cs))
    (h1 : 0 < zeros cs) (h2 : zeros cs ≤ 100) :
    scanTotal im.TotalPoints cs < 100 ∧
    0 ≤ (100 - scanTotal im.TotalPoints cs) / (zeros cs : Int) ∧
    assignPoints cs im =
      some (spread ((100 - scanTotal im.TotalPoints cs) / (zeros cs : Int))
              ((100 - scanTotal im.TotalPoints cs) % (zeros cs : Int)).toNat cs,
        { im with
          TotalPoints := 100
          ScoredVulns := im.ScoredVulns + (scored cs : Int) }) := by
  obtain ⟨hTmin, hTmax⟩ := scanTotal_bounds cs im.TotalPoints hmin hmax
  generalize hTdef : scanTotal im.TotalPoints cs = T at hpl hTmin hTmax
  have hlt : T < 100 := by
    unfold wrap at hpl
    unfold minInt at hTmin
    unfold maxInt at hTmax
    omega
  have hplw : wrap (100 - T) = 100 - T := by
    unfold wrap at hpl ⊢
    unfold minInt at hTmin
    unfold maxInt at hTmax
    omega
  have hPmax : 100 - T ≤ maxInt := by
    rw [← hplw]
    exact (wrap_bounds _).2
  have hA : ¬ ((wrap (100 - T) ≤ 0 ∧ zeros cs > 0) ∨ zeros cs > 100) := by omega
  have hB : wrap (100 - T) > 0 ∧ zeros cs > 0 := by omega
  have hn : (0 : Int) ≤ (zeros cs : Int) := by omega
  have hnpos : (0 : Int) < (zeros cs : Int) := by omega
  have hn1 : (1 : Int) ≤ (zeros cs : Int) := by omega
  have hq := Int.tdiv_eq_ediv (show (0 : Int) ≤ 100 - T by omega) hn
  have hq0 : 0 ≤ (100 - T) / (zeros cs : Int) := Int.ediv_nonneg (by omega) hn
  have hmod := Int.emod_def (100 - T) (zeros cs : Int)
  have hmod0 := Int.emod_nonneg (100 - T) (show (zeros cs : Int) ≠ 0 by omega)
  have hmodlt := Int.emod_lt_of_pos (100 - T) hnpos
  refine ⟨hlt, hq0, ?_⟩
  generalize hqdef : (100 - T) / (zeros cs : Int) = q at hq hmod hq0
  generalize hrdef : (100 - T) % (zeros cs : Int) = m at hmod hmod0 hmodlt
  have hcomm : (zeros cs : Int) * q = q * (zeros cs : Int) := Int.mul_comm _ _
  have hqn : q ≤ q * (zeros cs : Int) := le_mul_of_one_le_right hq0 hn1
  have hqn0 : 0 ≤ q * (zeros cs : Int) := by omega
  have hwmul : wrap (q * (zeros cs : Int)) = q * (zeros cs : Int) :=
    wrap_eq_self _ (by unfold minInt; omega) (by omega)
  have hwtot : wrap (T + q * (zeros cs : Int)) = T + q * (zeros cs : Int) :=
    wrap_eq_self _ (by omega) (by unfold maxInt; omega)
  have htot : 100 - (T + q * (zeros cs : Int)) = m := by
    rw [hmod, hcomm]
    ring
  have h100 : wrap (100 + wrap (100 - 100)) = 100 := by decide
  unfold assignPoints
  rw [scanChecks_eq]
  simp only [List.nil_append, zeroIdx_length, assignAll_unassigned, hTdef, hplw]
  rw [← hplw, if_neg hA, if_pos hB, hplw]
  simp only [hq, hwmul, hwtot]
  by_cases hlt' : T + q * (zeros cs : Int) < 100
  · have hq1 : wrap (q + 1) = q + 1 :=
      wrap_eq_self _ (by unfold minInt; omega) (by omega)
    have hloop := remainderLoop_eq_incAll (zeroIdx cs 0)
      (100 - (T + q * (zeros cs : Int))).toNat 0
      (T + q * (zeros cs : Int)) (cs.map (fill q)) (by omega) (le_refl _)
      (Or.inr (by rw [zeroIdx_length, htot]; omega))
    have hinc := incAll_take_zeroIdx q hq1 cs [] m.toNat
    simp only [List.length_nil, List.nil_append] at hinc
    rw [htot, List.drop_zero, hinc, max_eq_right (by omega)] at hloop
    rw [if_pos hlt']
    simp only [htot, hloop, Option.map_some', h100]
  · have hm : m = 0 := by omega
    rw [if_neg hlt', hm]
    have : T + q * (zeros cs : Int) = 100 := by omega
    rw [this]
    show some (cs.map (fill q), _) = some (spread q 0 cs, _)
    rw [spread_zero]

/-- The even-distribution branch raises the sum of the positive points by
what `TotalPoints` was missing. -/
theorem assignPoints_even (cs : List check) (im : imageData)
    (hmin : minInt ≤ im.TotalPoints) (hmax : im.TotalPoints ≤ maxInt)
    (hpl : 0 < wrap (100 - scanTotal im.TotalPoints cs))
    (h1 : 0 < zeros cs) (h2 : zeros cs ≤ 100) :
    ∃ cs', assignPoints cs im =
        some (cs',
          { im with
            TotalPoints := 100
            ScoredVulns := im.ScoredVulns + (scored cs : Int) }) ∧
      cs'.length = cs.length ∧
      posTotal cs' = posTotal cs + (100 - scanTotal im.TotalPoints cs) := by
  obtain ⟨hlt, hq0, hrun⟩ := assignPoints_even_exact cs im hmin hmax hpl h1 h2
  have hnpos : (0 : Int) < (zeros cs : Int) := by omega
  have hmod := Int.emod_def (100 - scanTotal im.TotalPoints cs) (zeros cs : Int)
  have hmod0 := Int.emod_nonneg (100 - scanTotal im.TotalPoints cs)
    (show (zeros cs : Int) ≠ 0 by omega)
  have hmodlt := Int.emod_lt_of_pos (100 - scanTotal im.TotalPoints cs) hnpos
  have hsum := posTotal_spread _ hq0 cs
    ((100 - scanTotal im.TotalPoints cs) % (zeros cs : Int)).toNat
  have hcomm := Int.mul_comm (zeros cs : Int)
    ((100 - scanTotal im.TotalPoints cs) / (zeros cs : Int))
  refine ⟨_, hrun, ?_, ?_⟩
  · have hlen : ∀ (q : Int) (l : List check) (r : Nat), (spread q r l).length = l.length := by
      intro q l
      induction l with
      | nil =>
        intro r
        rfl
      | cons c rest ih =>
        intro r
        rw [spread]
        split <;> simp [ih]
    exact hlen _ _ _
  · rw [hsum]
    omega

/-- The call `assignPoints` always returns: no index is out of range and the
remainder loop finishes.  It keeps the number of checks and touches only
`TotalPoints` and `ScoredVulns` of the score state. -/
theorem assignPoints_total (cs : List check) (im : imageData)
    (hmin : minInt ≤ im.TotalPoints) (hmax : im.TotalPoints ≤ maxInt) :
    ∃ cs' im', assignPoints cs im = some (cs', im') ∧ cs'.length = cs.length ∧
      im'.Score = im.Score ∧ im'.Contribs = im.Contribs ∧ im'.Detracts = im.Detracts ∧
      im'.Points = im.Points ∧ im'.Penalties = im.Penalties := by
  by_cases hA : (wrap (100 - scanTotal im.TotalPoints cs) ≤ 0 ∧ zeros cs > 0)
      ∨ zeros cs > 100
  · exact ⟨_, _, assignPoints_fallback cs im hA, by simp, rfl, rfl, rfl, rfl, rfl⟩
  · by_cases h0 : zeros cs = 0
    · exact ⟨_, _, assignPoints_explicit cs im h0, rfl, rfl, rfl, rfl, rfl, rfl⟩
    · obtain ⟨cs', hrun, hlen, _⟩ :=
        assignPoints_even cs im hmin hmax (by omega) (by omega) (by omega)
      exact ⟨_, _, hrun, hlen, rfl, rfl, rfl, rfl, rfl⟩

theorem empty_totalPoints_bounds :
    minInt ≤ ({} : imageData).TotalPoints ∧ ({} : imageData).TotalPoints ≤ maxInt := by
  decide

/-- When the positive points sum to less than 100, the first loop started
from the empty score state leaves that sum, and `pointsLeft` is positive. -/
theorem pointsLeft_pos_of_small (cs : List check) (hT : posTotal cs < 100) :
    scanTotal ({} : imageData).TotalPoints cs = posTotal cs ∧
      0 < wrap (100 - scanTotal ({} : imageData).TotalPoints cs) := by
  have h0 := posTotal_nonneg cs
  have hs := scanTotal_empty cs (by unfold maxInt; omega)
  refine ⟨hs, ?_⟩
  rw [hs]
  unfold wrap
  omega

/-! ## Allocation from the empty score state -/

/-- C2: when the explicit positive Points sum to less than 100 and between 1
and 100 checks have Points = 0, assignPoints started from the empty score
state returns, the Points of the checks with Points > 0 then sum to exactly
100, and TotalPoints = 100. -/
theorem assignPoints_even_sums_to_100 (cs : List check)
    (hT : posTotal cs < 100) (h1 : 1 ≤ zeros cs) (h2 : zeros cs ≤ 100) :
    ∃ cs' im, assignPoints cs {} = some (cs', im) ∧
      posTotal cs' = 100 ∧ im.TotalPoints = 100 := by
  obtain ⟨hs, hpl⟩ := pointsLeft_pos_of_small cs hT
  obtain ⟨cs', hrun, _, hsum⟩ := assignPoints_even cs {} empty_totalPoints_bounds.1
    empty_totalPoints_bounds.2 hpl (by omega) h2
  refine ⟨cs', _, hrun, ?_, rfl⟩
  rw [hsum, hs]
  omega

theorem assignPoints_even_sums_to_100_witness :
    posTotal [pts 0, pts 0, pts 0] < 100 ∧ 1 ≤ zeros [pts 0, pts 0, pts 0] ∧
    zeros [pts 0, pts 0, pts 0] ≤ 100 ∧
    ∃ cs' im, assignPoints [pts 0, pts 0, pts 0] {} = some (cs', im) ∧
      posTotal cs' = 100 ∧ im.TotalPoints = 100 :=
  ⟨by decide, by decide, by decide,
   assignPoints_even_sums_to_100 [pts 0, pts 0, pts 0] (by decide) (by decide) (by decide)⟩

/-- C6: when the explicit positive Points sum to at least 100 and to no
more than MaxInt64, so that adding them up does not overflow, and some check
has Points = 0, or when more than 100 checks have Points = 0, assignPoints
started from the empty score state returns the check list in which every
check that had Points = 0 has Points = 3 (and every other check is as it
was). -/
theorem assignPoints_fallback_gives_three_in_range (cs : List check)
    (h : (100 ≤ posTotal cs ∧ posTotal cs ≤ maxInt ∧ 1 ≤ zeros cs) ∨ 100 < zeros cs) :
    ∃ im, assignPoints cs {} =
      some (cs.map (fun c => if c.Points = 0 then { c with Points := 3 } else c), im) := by
  have hA : (wrap (100 - scanTotal ({} : imageData).TotalPoints cs) ≤ 0 ∧ zeros cs > 0)
      ∨ zeros cs > 100 := by
    rcases h with ⟨h100, hmax, hz⟩ | hz
    · left
      rw [scanTotal_empty cs hmax]
      refine ⟨?_, by omega⟩
      unfold wrap
      unfold maxInt at hmax
      omega
    · right
      omega
  exact ⟨_, assignPoints_fallback cs {} hA⟩

theorem assignPoints_fallback_gives_three_in_range_witness :
    ((100 ≤ posTotal [pts 100, pts 0] ∧ posTotal [pts 100, pts 0] ≤ maxInt ∧
        1 ≤ zeros [pts 100, pts 0])
      ∨ 100 < zeros [pts 100, pts 0]) ∧
    ∃ im, assignPoints [pts 100, pts 0] {} =
      some ([pts 100, pts 0].map
        (fun c => if c.Points = 0 then { c with Points := 3 } else c), im) :=
  ⟨by decide, assignPoints_fallback_gives_three_in_range [pts 100, pts 0] (by decide)⟩

/-- On [{Points:MaxInt64},{Points:MaxInt64},{Points:0}] the explicit positive
Points sum to more than 100 and one check is unassigned, but line 185 wraps
TotalPoints to -2, the even-distribution branch is taken and the unassigned
check gets 102 points, not 3. -/
theorem assignPoints_fallback_overflow :
    (100 ≤ posTotal [pts maxInt, pts maxInt, pts 0] ∧
      1 ≤ zeros [pts maxInt, pts maxInt, pts 0]) ∧
    assignPoints [pts maxInt, pts maxInt, pts 0] {} =
      some ([pts maxInt, pts maxInt, pts 102], { TotalPoints := 100, ScoredVulns := 3 }) := by
  decide

/-- C7: on the check list [{Points:100},{Points:0}] assignPoints gives the
second check 3 points, so the positive Points sum to 103, but leaves
TotalPoints at 100: the fallback branch does not add what it assigns. -/
theorem assignPoints_fallback_total_stale :
    assignPoints [pts 100, pts 0] {} =
      some ([pts 100, pts 3], { TotalPoints := 100, ScoredVulns := 2 }) ∧
    posTotal [pts 100, pts 3] = 103 := by
  decide


/-! ## What `assignPoints` leaves alone -/

theorem sameBut_refl (c : check) : sameBut c c :=
  ⟨rfl, rfl, rfl, rfl, fun _ => rfl⟩

theorem sameBut_fill (v : Int) (c : check) : sameBut c (fill v c) := by
  by_cases h0 : c.Points = 0
  · simp [sameBut, fill, h0]
  · simp [sameBut, fill, h0]

theorem forall₂_sameBut_refl (cs : List check) : List.Forall₂ sameBut cs cs :=
  List.forall₂_same.mpr (fun c _ => sameBut_refl c)

theorem forall₂_sameBut_map_fill (v : Int) (cs : List check) :
    List.Forall₂ sameBut cs (cs.map (fill v)) := by
  induction cs with
  | nil => exact List.Forall₂.nil
  | cons c rest ih => exact List.Forall₂.cons (sameBut_fill v c) ih

theorem forall₂_sameBut_spread (q : Int) (cs : List check) :
    ∀ r : Nat, List.Forall₂ sameBut cs (spread q r cs) := by
  induction cs with
  | nil =>
    intro r
    exact List.Forall₂.nil
  | cons c rest ih =>
    intro r
    rw [spread]
    by_cases h0 : c.Points = 0
    · rw [if_pos h0]
      exact List.Forall₂.cons ⟨rfl, rfl, rfl, rfl, fun h => absurd h0 h⟩ (ih (r - 1))
    · rw [if_neg h0]
      exact List.Forall₂.cons (sameBut_refl c) (ih r)

theorem forall₂_getElem? {R : check → check → Prop} {xs ys : List check}
    (h : List.Forall₂ R xs ys) :
    ∀ (i : Nat) (c : check), xs[i]? = some c → ∃ d, ys[i]? = some d ∧ R c d := by
  induction h with
  | nil =>
    intro i c hc
    simp at hc
  | cons hab _ ih =>
    intro i c hc
    cases i with
    | zero =>
      simp only [List.getElem?_cons_zero, Option.some.injEq] at hc
      subst hc
      exact ⟨_, by simp, hab⟩
    | succ k =>
      rw [List.getElem?_cons_succ] at hc
      obtain ⟨d, hd, hr⟩ := ih k c hc
      exact ⟨d, by rw [List.getElem?_cons_succ]; exact hd, hr⟩

/-- In every branch `assignPoints` returns a list that differs from the
input at most in the `Points` of the unassigned checks. -/
theorem assignPoints_sameBut (cs : List check) (im : imageData)
    (hmin : minInt ≤ im.TotalPoints) (hmax : im.TotalPoints ≤ maxInt) :
    ∃ cs' im', assignPoints cs im = some (cs', im') ∧ List.Forall₂ sameBut cs cs' := by
  by_cases hA : (wrap (100 - scanTotal im.TotalPoints cs) ≤ 0 ∧ zeros cs > 0)
      ∨ zeros cs > 100
  · exact ⟨_, _, assignPoints_fallback cs im hA, forall₂_sameBut_map_fill 3 cs⟩
  · by_cases h0 : zeros cs = 0
    · exact ⟨_, _, assignPoints_explicit cs im h0, forall₂_sameBut_refl cs⟩
    · exact ⟨_, _,
        (assignPoints_even_exact cs im hmin hmax (by omega) (by omega) (by omega)).2.2,
        forall₂_sameBut_spread _ cs _⟩

/-- C11: assignPoints keeps the length and the order of the check list,
leaves Message, Pass, PassOverride and Fail of every check unchanged and
leaves Points unchanged on every check whose Points was not zero; when no
check has Points = 0 the list comes back unchanged and TotalPoints is the
sum of the explicit positive Points in Go arithmetic, that is reduced
modulo 2^64 into the range of a Go int, and the exact sum when that does
not exceed MaxInt64. -/
theorem assignPoints_frame_wrapped (cs : List check) :
    ∃ cs' im, assignPoints cs {} = some (cs', im) ∧ cs'.length = cs.length ∧
      (∀ (i : Nat) (c : check), cs[i]? = some c →
        ∃ d, cs'[i]? = some d ∧ d.Message = c.Message ∧ d.Pass = c.Pass ∧
          d.PassOverride = c.PassOverride ∧ d.Fail = c.Fail ∧
          (c.Points ≠ 0 → d.Points = c.Points)) ∧
      (zeros cs = 0 →
        cs' = cs ∧ im.TotalPoints = wrap (posTotal cs) ∧
          (posTotal cs ≤ maxInt → im.TotalPoints = posTotal cs)) := by
  obtain ⟨cs', im', hrun, hrel⟩ :=
    assignPoints_sameBut cs {} empty_totalPoints_bounds.1 empty_totalPoints_bounds.2
  refine ⟨cs', im', hrun, hrel.length_eq.symm, ?_, ?_⟩
  · intro i c hc
    obtain ⟨d, hd, hr⟩ := forall₂_getElem? hrel i c hc
    exact ⟨d, hd, hr⟩
  · intro h0
    have hex := assignPoints_explicit cs {} h0
    rw [hrun] at hex
    simp only [Option.some.injEq, Prod.mk.injEq] at hex
    have hw : im'.TotalPoints = wrap (posTotal cs) := by
      rw [hex.2]
      show scanTotal ({} : imageData).TotalPoints cs = _
      rw [scanTotal_eq_wrap cs _ empty_totalPoints_bounds.1 empty_totalPoints_bounds.2]
      show wrap ((0 : Int) + posTotal cs) = _
      rw [Int.zero_add]
    refine ⟨hex.1, hw, ?_⟩
    intro hle
    have h0' := posTotal_nonneg cs
    rw [hw]
    exact wrap_eq_self _ (by unfold minInt; omega) hle

/-- On [{Points:MaxInt64},{Points:1}] no check is unassigned and the explicit
positive Points sum to 2^63, but line 185 wraps and TotalPoints ends at
MinInt64. -/
theorem assignPoints_frame_overflow :
    zeros [pts maxInt, pts 1] = 0 ∧
    assignPoints [pts maxInt, pts 1] {} =
      some ([pts maxInt, pts 1], { TotalPoints := minInt, ScoredVulns := 2 }) ∧
    minInt ≠ posTotal [pts maxInt, pts 1] := by
  decide

/-! ## The value each unassigned check receives -/

theorem zeros_nil : zeros [] = 0 := rfl

/-- In a spread list the unassigned check at position `i` holds `q + 1` when
fewer than `r` unassigned checks come before it, and `q` otherwise. -/
theorem spread_points (q : Int) (cs : List check) :
    ∀ (r i : Nat) (c : check), cs[i]? = some c → c.Points = 0 →
      ∃ d, (spread q r cs)[i]? = some d ∧
        d.Points = if zeros (cs.take i) < r then q + 1 else q := by
  induction cs with
  | nil =>
    intro r i c hc
    simp at hc
  | cons x rest ih =>
    intro r i c hc hp
    cases i with
    | zero =>
      simp only [List.getElem?_cons_zero, Option.some.injEq] at hc
      subst hc
      rw [spread, if_pos hp]
      refine ⟨{ x with Points := if 0 < r then q + 1 else q }, ?_, ?_⟩
      · rw [List.getElem?_cons_zero]
      · rw [List.take_zero, zeros_nil]
    | succ k =>
      rw [List.getElem?_cons_succ] at hc
      rw [spread, List.take_succ_cons, zeros_cons]
      by_cases h0 : x.Points = 0
      · obtain ⟨d, hd, hdp⟩ := ih (r - 1) k c hc hp
        refine ⟨d, ?_, ?_⟩
        · rw [if_pos h0, List.getElem?_cons_succ]
          exact hd
        · rw [hdp, if_pos h0]
          by_cases hlt : zeros (rest.take k) < r - 1
          · rw [if_pos hlt, if_pos (by omega)]
          · rw [if_neg hlt, if_neg (by omega)]
      · obtain ⟨d, hd, hdp⟩ := ih r k c hc hp
        refine ⟨d, ?_, ?_⟩
        · rw [if_neg h0, List.getElem?_cons_succ]
          exact hd
        · rw [hdp, if_neg h0, Nat.add_zero]

/-- C12: in the even-distribution branch (explicit positive total T < 100, n
unassigned checks with 1 <= n <= 100), with q = (100 - T) / n and
r = (100 - T) mod n, an unassigned check that has k unassigned checks before
it in the list ends with Points = q + 1 if k < r and Points = q otherwise;
r < n, so the loop stops before the round-robin index wraps and no check
gets more than one extra point. -/
theorem assignPoints_even_values (cs : List check)
    (hT : posTotal cs < 100) (h1 : 1 ≤ zeros cs) (h2 : zeros cs ≤ 100) :
    ∃ cs' im, assignPoints cs {} = some (cs', im) ∧
      (100 - posTotal cs) % (zeros cs : Int) < (zeros cs : Int) ∧
      ∀ (i : Nat) (c : check), cs[i]? = some c → c.Points = 0 →
        ∃ d, cs'[i]? = some d ∧
          d.Points =
            if (zeros (cs.take i) : Int) < (100 - posTotal cs) % (zeros cs : Int)
            then (100 - posTotal cs) / (zeros cs : Int) + 1
            else (100 - posTotal cs) / (zeros cs : Int) := by
  obtain ⟨hs, hpl⟩ := pointsLeft_pos_of_small cs hT
  have hrun := (assignPoints_even_exact cs {} empty_totalPoints_bounds.1
    empty_totalPoints_bounds.2 hpl (by omega) h2).2.2
  rw [hs] at hrun
  have hnpos : (0 : Int) < (zeros cs : Int) := by omega
  have hmod0 := Int.emod_nonneg (100 - posTotal cs) (show (zeros cs : Int) ≠ 0 by omega)
  have hmodlt := Int.emod_lt_of_pos (100 - posTotal cs) hnpos
  refine ⟨_, _, hrun, hmodlt, ?_⟩
  intro i c hc hp
  obtain ⟨d, hd, hdp⟩ := spread_points ((100 - posTotal cs) / (zeros cs : Int)) cs
    ((100 - posTotal cs) % (zeros cs : Int)).toNat i c hc hp
  refine ⟨d, hd, ?_⟩
  rw [hdp]
  by_cases hlt : zeros (cs.take i) < ((100 - posTotal cs) % (zeros cs : Int)).toNat
  · rw [if_pos hlt, if_pos (by omega)]
  · rw [if_neg hlt, if_neg (by omega)]

theorem assignPoints_even_values_witness :
    posTotal [pts 0, pts 0, pts 0] < 100 ∧ 1 ≤ zeros [pts 0, pts 0, pts 0] ∧
    zeros [pts 0, pts 0, pts 0] ≤ 100 ∧
    ∃ cs' im, assignPoints [pts 0, pts 0, pts 0] {} = some (cs', im) ∧
      (100 - posTotal [pts 0, pts 0, pts 0]) % (zeros [pts 0, pts 0, pts 0] : Int)
        < (zeros [pts 0, pts 0, pts 0] : Int) ∧
      ∀ (i : Nat) (c : check), [pts 0, pts 0, pts 0][i]? = some c → c.Points = 0 →
        ∃ d, cs'[i]? = some d ∧
          d.Points =
            if (zeros ([pts 0, pts 0, pts 0].take i) : Int)
                < (100 - posTotal [pts 0, pts 0, pts 0]) % (zeros [pts 0, pts 0, pts 0] : Int)
            then (100 - posTotal [pts 0, pts 0, pts 0]) / (zeros [pts 0, pts 0, pts 0] : Int) + 1
            else (100 - posTotal [pts 0, pts 0, pts 0]) / (zeros [pts 0, pts 0, pts 0] : Int) :=
  ⟨by decide, by decide, by decide,
   assignPoints_even_values [pts 0, pts 0, pts 0] (by decide) (by decide) (by decide)⟩

/-- Three unassigned checks end as 34, 33, 33 with `TotalPoints = 100`. -/
theorem assignPoints_three_unassigned :
    assignPoints [pts 0, pts 0, pts 0] {} =
      some ([pts 34, pts 33, pts 33], { TotalPoints := 100, ScoredVulns := 3 }) := by
  decide

/-- C14: on the check list [{Points:99},{Points:0},{Points:0}] assignPoints
takes the even-distribution branch with pointsEach = 0 and one remainder
point, so the last check is left with Points = 0. -/
theorem assignPoints_leaves_zero :
    assignPoints [pts 99, pts 0, pts 0] {} =
      some ([pts 99, pts 1, pts 0], { TotalPoints := 100, ScoredVulns := 3 }) := by
  decide

/-! ## `ScoredVulns` -/

theorem scored_map_fill (v : Int) (hv : 0 ≤ v) (cs : List check) :
    scored (cs.map (fill v)) = scored cs := by
  induction cs with
  | nil => rfl
  | cons c rest ih =>
    rw [List.map_cons, scored_cons, scored_cons, ih]
    by_cases h0 : c.Points = 0
    · simp [fill, h0, hv]
    · simp [fill, h0]

theorem scored_spread (q : Int) (hq : 0 ≤ q) (cs : List check) :
    ∀ r : Nat, scored (spread q r cs) = scored cs := by
  induction cs with
  | nil =>
    intro r
    rfl
  | cons c rest ih =>
    intro r
    rw [spread]
    by_cases h0 : c.Points = 0
    · rw [if_pos h0, scored_cons, scored_cons, ih (r - 1)]
      have hnew : (if 0 < r then q + 1 else q) ≥ 0 := by
        split <;> omega
      have hold : c.Points ≥ 0 := by omega
      simp only [hnew, hold, if_true]
    · rw [if_neg h0, scored_cons, scored_cons, ih r]

/-- C16: after assignPoints started from the empty score state, ScoredVulns
is the number of checks with Points >= 0; the count is the same on the list
before and after allocation, so unassigned and positive checks are counted
and penalty checks are not. -/
theorem assignPoints_scoredVulns (cs : List check) :
    ∃ cs' im, assignPoints cs {} = some (cs', im) ∧
      im.ScoredVulns = (scored cs : Int) ∧ scored cs' = scored cs := by
  have e : ∀ k : Int, ({} : imageData).ScoredVulns + k = k := by
    intro k
    show (0 : Int) + k = k
    omega
  by_cases hA : (wrap (100 - scanTotal ({} : imageData).TotalPoints cs) ≤ 0 ∧ zeros cs > 0)
      ∨ zeros cs > 100
  · exact ⟨_, _, assignPoints_fallback cs {} hA, e _, scored_map_fill 3 (by decide) cs⟩
  · by_cases h0 : zeros cs = 0
    · exact ⟨_, _, assignPoints_explicit cs {} h0, e _, rfl⟩
    · obtain ⟨_, hq, hrun⟩ := assignPoints_even_exact cs {} empty_totalPoints_bounds.1
        empty_totalPoints_bounds.2 (by omega) (by omega) (by omega)
      exact ⟨_, _, hrun, e _, scored_spread _ hq cs _⟩

/-! ## The evaluator calls made by `scoreCheck` -/

theorem uptoFirstTrue_nil (ev : Evaluator) : uptoFirstTrue ev [] = [] := rfl

theorem uptoFirstTrue_cons (ev : Evaluator) (c : condition) (rest : List condition) :
    uptoFirstTrue ev (c :: rest) = if ev c then [c] else c :: uptoFirstTrue ev rest := by
  by_cases h : ev c = true
  · simp [uptoFirstTrue, List.takeWhile_cons, h]
  · simp [uptoFirstTrue, List.takeWhile_cons, h]

theorem overrideLoop_snd (ev : Evaluator) (l : List condition) (s : Bool) :
    (overrideLoop ev l s).2 = uptoFirstTrue ev l := by
  induction l with
  | nil => rfl
  | cons c rest ih =>
    rw [overrideLoop, uptoFirstTrue_cons]
    by_cases h : ev c = true
    · simp [h]
    · simp [h, ih]

theorem failLoop_snd (ev : Evaluator) (l : List condition) (s : Bool) :
    (failLoop ev l s).2 = uptoFirstTrue ev l := by
  induction l with
  | nil => rfl
  | cons c rest ih =>
    rw [failLoop, uptoFirstTrue_cons]
    by_cases h : ev c = true
    · simp [h]
    · simp [h, ih]

/-- C17: the evaluator calls made by scoreCheck are, in order: every Pass
condition, then the PassOverride conditions up to and including the first
that evaluates true (all of them if none does), then the Fail conditions up
to and including the first that evaluates true (all of them if none does). -/
theorem checkStatus_calls (ev : Evaluator) (c : check) :
    (checkStatus ev c).2
      = c.Pass ++ uptoFirstTrue ev c.PassOverride ++ uptoFirstTrue ev c.Fail := by
  simp only [checkStatus, overrideLoop_snd, failLoop_snd]

/-- An example of the call order: the second Pass condition is evaluated
although the first is false, and in each of the other two groups nothing is
evaluated after the first true condition. -/
theorem callOrder_example :
    (checkStatus evYes
      (check.mk "m" 5 [cond "no", cond "yes"] [cond "no", cond "yes", cond "x"]
        [cond "yes", cond "y"])).2
      = [cond "no", cond "yes", cond "no", cond "yes", cond "yes"] := by
  decide


/-! ## The sequential scoring pass -/

theorem scoreCheck_balance (ev : Evaluator) (im : imageData) (c : check)
    (h : im.Score = wrap (im.Contribs + im.Detracts)) :
    (scoreCheck ev im c).Score
      = wrap ((scoreCheck ev im c).Contribs + (scoreCheck ev im c).Detracts) := by
  unfold scoreCheck
  by_cases hp : c.Points ≥ 0 <;> cases (checkStatus ev c).1 <;> simp [hp, h] <;>
    (unfold wrap; omega)

theorem foldl_scoreCheck_balance (ev : Evaluator) (cs : List check) (im : imageData)
    (h : im.Score = wrap (im.Contribs + im.Detracts)) :
    (cs.foldl (scoreCheck ev) im).Score
      = wrap ((cs.foldl (scoreCheck ev) im).Contribs
          + (cs.foldl (scoreCheck ev) im).Detracts) := by
  induction cs generalizing im with
  | nil => exact h
  | cons c rest ih =>
    rw [List.foldl_cons]
    exact ih _ (scoreCheck_balance ev im c h)

/-- C1: for every check list and every evaluator the sequential scoring pass
(reset, assignPoints, then scoreCheck on each check in list order) returns,
and the score state it returns satisfies Score = Contribs + Detracts in Go
arithmetic, that is with the sum reduced modulo 2^64 into the range of a Go
int; where Contribs + Detracts lies in that range the equation is exact. -/
theorem sequentialPass_score_wrapped (ev : Evaluator) (cs : List check) :
    ∃ cs' im, sequentialPass ev cs = some (cs', im) ∧
      im.Score = wrap (im.Contribs + im.Detracts) ∧
      (minInt ≤ im.Contribs + im.Detracts → im.Contribs + im.Detracts ≤ maxInt →
        im.Score = im.Contribs + im.Detracts) := by
  obtain ⟨cs', im', hrun, _, hs, hc, hd, _, _⟩ :=
    assignPoints_total cs {} empty_totalPoints_bounds.1 empty_totalPoints_bounds.2
  have hbal : (cs'.foldl (scoreCheck ev) im').Score
      = wrap ((cs'.foldl (scoreCheck ev) im').Contribs
          + (cs'.foldl (scoreCheck ev) im').Detracts) := by
    apply foldl_scoreCheck_balance
    rw [hs, hc, hd]
    decide
  refine ⟨cs', cs'.foldl (scoreCheck ev) im', ?_, hbal, ?_⟩
  · simp only [sequentialPass, hrun]
  · intro h1 h2
    rw [hbal]
    exact wrap_eq_self _ h1 h2

/-- On [{Points:MaxInt64},{Points:-1},{Points:1}] with every check passing
the sequential pass ends with Score = MaxInt64, Contribs = MinInt64 and
Detracts = -1: Score is not the exact sum Contribs + Detracts. -/
theorem sequentialPass_score_overflow :
    sequentialPass evYes [pts maxInt, pts (-1), pts 1] =
      some ([pts maxInt, pts (-1), pts 1],
        { Score := maxInt, Contribs := minInt, Detracts := -1, TotalPoints := minInt,
          ScoredVulns := 2, Points := [⟨"", maxInt⟩, ⟨"", 1⟩], Penalties := [⟨"", -1⟩] }) ∧
    maxInt ≠ minInt + (-1) := by
  decide

/-! ## `Contribs` after a sequential pass -/

theorem gain_nonneg (ev : Evaluator) (c : check) : 0 ≤ gain ev c := by
  unfold gain
  split <;> omega

theorem gain_le (ev : Evaluator) (c : check) :
    gain ev c ≤ (if c.Points > 0 then c.Points else 0) := by
  unfold gain
  split <;> split <;> omega

theorem scoreCheck_contribs (ev : Evaluator) (im : imageData) (c : check)
    (h1 : minInt ≤ im.Contribs + gain ev c) (h2 : im.Contribs + gain ev c ≤ maxInt) :
    (scoreCheck ev im c).Contribs = im.Contribs + gain ev c := by
  unfold gain at h1 h2 ⊢
  unfold scoreCheck
  by_cases hp : c.Points ≥ 0
  · cases hst : (checkStatus ev c).1
    · simp [hp]
    · simp only [hp, hst, and_self, if_true] at h1 h2 ⊢
      exact wrap_eq_self _ h1 h2
  · cases hst : (checkStatus ev c).1 <;> simp [hp]

/-- As long as the positive points fit, `Contribs` after a sequential fold is
what it was plus the gains of the checks. -/
theorem foldl_scoreCheck_contribs (ev : Evaluator) (cs : List check) :
    ∀ im : imageData, 0 ≤ im.Contribs → im.Contribs + posTotal cs ≤ maxInt →
      (cs.foldl (scoreCheck ev) im).Contribs = im.Contribs + (cs.map (gain ev)).sum := by
  induction cs with
  | nil =>
    intro im _ _
    simp
  | cons c rest ih =>
    intro im h0 hle
    rw [posTotal_cons] at hle
    have hg0 := gain_nonneg ev c
    have hgl := gain_le ev c
    have hr0 := posTotal_nonneg rest
    have hstep := scoreCheck_contribs ev im c (by unfold minInt; omega) (by omega)
    rw [List.foldl_cons, ih _ (by omega) (by omega), hstep, List.map_cons, List.sum_cons]
    ring

/-- The gains of a list lie between 0 and the sum of its positive points,
and reach that sum exactly when every check with positive points has status
true. -/
theorem gain_sum_bounds (ev : Evaluator) (cs : List check) :
    0 ≤ (cs.map (gain ev)).sum ∧ (cs.map (gain ev)).sum ≤ posTotal cs ∧
      ((cs.map (gain ev)).sum = posTotal cs ↔
        ∀ c ∈ cs, 0 < c.Points → (checkStatus ev c).1 = true) := by
  induction cs with
  | nil => simp [posTotal_nil]
  | cons c rest ih =>
    obtain ⟨h0, hle, hiff⟩ := ih
    rw [List.map_cons, List.sum_cons, posTotal_cons]
    have hg : 0 ≤ gain ev c ∧ gain ev c ≤ (if c.Points > 0 then c.Points else 0) ∧
        (gain ev c = (if c.Points > 0 then c.Points else 0) ↔
          (0 < c.Points → (checkStatus ev c).1 = true)) := by
      unfold gain
      by_cases hp : c.Points > 0
      · have hp' : c.Points ≥ 0 := by omega
        cases (checkStatus ev c).1
        · simp [hp, hp']
          omega
        · simp [hp, hp']
      · by_cases hp' : c.Points ≥ 0
        · have : c.Points = 0 := by omega
          simp [this]
        · simp [hp, hp']
    obtain ⟨g0, gle, giff⟩ := hg
    refine ⟨by omega, by omega, ?_⟩
    constructor
    · intro hsum d hd
      have h1 : gain ev c = (if c.Points > 0 then c.Points else 0) := by omega
      have h2 : (rest.map (gain ev)).sum = posTotal rest := by omega
      rcases List.mem_cons.mp hd with hdc | hdr
      · rw [hdc]
        exact giff.mp h1
      · exact hiff.mp h2 d hdr
    · intro hall
      have h1 := giff.mpr (hall c (List.mem_cons_self _ _))
      have h2 := hiff.mpr (fun d hd => hall d (List.mem_cons_of_mem _ hd))
      omega

/-- In a sequential pass that takes the even-distribution branch (explicit
positive total below 100, between 1 and 100 unassigned checks) the score
state ends with 0 <= Contribs <= 100, and with Contribs = 100 exactly when
every check with positive Points after allocation has status true.  This
speaks of the sequential pass only, not of a run in which the goroutines of
lines 92-98 interleave. -/
theorem sequentialPass_contribs_normalized (ev : Evaluator) (cs : List check)
    (hT : posTotal cs < 100) (h1 : 1 ≤ zeros cs) (h2 : zeros cs ≤ 100) :
    ∃ cs' im, sequentialPass ev cs = some (cs', im) ∧
      0 ≤ im.Contribs ∧ im.Contribs ≤ 100 ∧
      (im.Contribs = 100 ↔ ∀ c ∈ cs', 0 < c.Points → (checkStatus ev c).1 = true) := by
  obtain ⟨hs, hpl⟩ := pointsLeft_pos_of_small cs hT
  have key : ∃ cs' im', assignPoints cs {} = some (cs', im') ∧ posTotal cs' = 100 ∧
      im'.Contribs = 0 := by
    obtain ⟨cs', hrun, _, hsum⟩ := assignPoints_even cs {} empty_totalPoints_bounds.1
      empty_totalPoints_bounds.2 hpl (by omega) h2
    rw [hs] at hsum
    exact ⟨cs', _, hrun, by omega, rfl⟩
  obtain ⟨cs', im', hrun, hpos, hc0⟩ := key
  obtain ⟨g0, gle, giff⟩ := gain_sum_bounds ev cs'
  rw [hpos] at gle giff
  have hpass : sequentialPass ev cs = some (cs', cs'.foldl (scoreCheck ev) im') := by
    unfold sequentialPass
    rw [hrun]
  have hfold := foldl_scoreCheck_contribs ev cs' im' (by omega)
    (by rw [hc0, hpos]; decide)
  rw [hc0, Int.zero_add] at hfold
  refine ⟨cs', _, hpass, ?_, ?_, ?_⟩
  · rw [hfold]
    exact g0
  · rw [hfold]
    exact gle
  · rw [hfold]
    exact giff

/-! ## Running the pass again -/

/-- C15: a second pass on the list left by the first does not return the
same score state.  On [{Points:100},{Points:0}] the first pass ends with
TotalPoints = 100 and the second with TotalPoints = 103; on
[{Points:99},{Points:0},{Points:0}] the first pass leaves a check at 0, the
second gives it 3 points, and Score goes from 100 to 103. -/
theorem sequentialPass_second_pass_differs :
    sequentialPass evYes [pts 100, pts 0] =
      some ([pts 100, pts 3],
        { Score := 103, Contribs := 103, TotalPoints := 100, ScoredVulns := 2,
          Points := [⟨"", 100⟩, ⟨"", 3⟩] }) ∧
    sequentialPass evYes [pts 100, pts 3] =
      some ([pts 100, pts 3],
        { Score := 103, Contribs := 103, TotalPoints := 103, ScoredVulns := 2,
          Points := [⟨"", 100⟩, ⟨"", 3⟩] }) ∧
    sequentialPass evYes [pts 99, pts 0, pts 0] =
      some ([pts 99, pts 1, pts 0],
        { Score := 100, Contribs := 100, TotalPoints := 100, ScoredVulns := 3,
          Points := [⟨"", 99⟩, ⟨"", 1⟩, ⟨"", 0⟩] }) ∧
    sequentialPass evYes [pts 99, pts 1, pts 0] =
      some ([pts 99, pts 1, pts 3],
        { Score := 103, Contribs := 103, TotalPoints := 100, ScoredVulns := 3,
          Points := [⟨"", 99⟩, ⟨"", 1⟩, ⟨"", 3⟩] }) := by
  decide

/-! ## The order in which the checks are scored -/

theorem sameUpToOrder_refl (a : imageData) : sameUpToOrder a a :=
  ⟨rfl, rfl, rfl, rfl, rfl, List.Perm.refl _, List.Perm.refl _⟩

theorem sameUpToOrder_trans {a b c : imageData}
    (h1 : sameUpToOrder a b) (h2 : sameUpToOrder b c) : sameUpToOrder a c := by
  obtain ⟨a1, a2, a3, a4, a5, a6, a7⟩ := h1
  obtain ⟨b1, b2, b3, b4, b5, b6, b7⟩ := h2
  exact ⟨a1.trans b1, a2.trans b2, a3.trans b3, a4.trans b4, a5.trans b5,
    a6.trans b6, a7.trans b7⟩

theorem scoreCheck_sameUpToOrder (ev : Evaluator) (c : check) {a b : imageData}
    (h : sameUpToOrder a b) : sameUpToOrder (scoreCheck ev a c) (scoreCheck ev b c) := by
  obtain ⟨h1, h2, h3, h4, h5, h6, h7⟩ := h
  unfold scoreCheck
  by_cases hp : c.Points ≥ 0
  · cases (checkStatus ev c).1
    · simp only [hp, if_true, Bool.false_eq_true, if_false]
      exact ⟨h1, h2, h3, h4, h5, h6, h7⟩
    · simp only [hp, if_true]
      exact ⟨by rw [h1], by rw [h2], h3, h4, h5, h6.append_right _, h7⟩
  · cases (checkStatus ev c).1
    · simp only [hp, if_false, Bool.false_eq_true]
      exact ⟨h1, h2, h3, h4, h5, h6, h7⟩
    · simp only [hp, if_false, if_true]
      exact ⟨by rw [h1], h2, by rw [h3], h4, h5, h6, h7.append_right _⟩

theorem foldl_scoreCheck_sameUpToOrder (ev : Evaluator) (cs : List check) :
    ∀ {a b : imageData}, sameUpToOrder a b →
      sameUpToOrder (cs.foldl (scoreCheck ev) a) (cs.foldl (scoreCheck ev) b) := by
  induction cs with
  | nil =>
    intro a b h
    exact h
  | cons c rest ih =>
    intro a b h
    exact ih (scoreCheck_sameUpToOrder ev c h)

/-- Scoring two checks in either order gives the same totals and the same
ledgers up to order. -/
theorem scoreCheck_swap (ev : Evaluator) (x y : check) (a : imageData) :
    sameUpToOrder (scoreCheck ev (scoreCheck ev a y) x) (scoreCheck ev (scoreCheck ev a x) y) := by
  unfold scoreCheck
  by_cases hx : x.Points ≥ 0 <;> by_cases hy : y.Points ≥ 0 <;>
    cases (checkStatus ev x).1 <;> cases (checkStatus ev y).1 <;>
    simp only [hx, hy, if_true, if_false, Bool.false_eq_true] <;>
    refine ⟨?_, ?_, ?_, rfl, rfl, ?_, ?_⟩ <;>
    first
      | rfl
      | exact List.Perm.refl _
      | (show wrap (wrap _ + _) = wrap (wrap _ + _)
         unfold wrap
         omega)
      | (rw [List.append_assoc, List.append_assoc]
         exact List.Perm.append_left _ List.perm_append_comm)

theorem foldl_scoreCheck_perm (ev : Evaluator) {xs ys : List check} (h : xs.Perm ys) :
    ∀ {a b : imageData}, sameUpToOrder a b →
      sameUpToOrder (xs.foldl (scoreCheck ev) a) (ys.foldl (scoreCheck ev) b) := by
  induction h with
  | nil =>
    intro a b hab
    exact hab
  | cons c _ ih =>
    intro a b hab
    exact ih (scoreCheck_sameUpToOrder ev c hab)
  | swap x y l =>
    intro a b hab
    rw [List.foldl_cons, List.foldl_cons, List.foldl_cons, List.foldl_cons]
    exact foldl_scoreCheck_sameUpToOrder ev l
      (sameUpToOrder_trans (scoreCheck_swap ev x y a)
        (scoreCheck_sameUpToOrder ev y (scoreCheck_sameUpToOrder ev x hab)))
  | trans _ _ ih1 ih2 =>
    intro a b hab
    exact sameUpToOrder_trans (ih1 hab) (ih2 (sameUpToOrder_refl b))

/-- C19: applying scoreCheck to the checks in any permuted order, starting
from the same score state, gives the same Score, Contribs and Detracts as
list order, and Points and Penalties ledgers that are permutations of those
obtained in list order. -/
theorem scoreCheck_order_independent (ev : Evaluator) (im : imageData)
    (cs cs2 : List check) (h : cs.Perm cs2) :
    (cs2.foldl (scoreCheck ev) im).Score = (cs.foldl (scoreCheck ev) im).Score ∧
    (cs2.foldl (scoreCheck ev) im).Contribs = (cs.foldl (scoreCheck ev) im).Contribs ∧
    (cs2.foldl (scoreCheck ev) im).Detracts = (cs.foldl (scoreCheck ev) im).Detracts ∧
    (cs2.foldl (scoreCheck ev) im).Points.Perm (cs.foldl (scoreCheck ev) im).Points ∧
    (cs2.foldl (scoreCheck ev) im).Penalties.Perm (cs.foldl (scoreCheck ev) im).Penalties := by
  obtain ⟨h1, h2, h3, _, _, h6, h7⟩ := foldl_scoreCheck_perm ev h (sameUpToOrder_refl im)
  exact ⟨h1.symm, h2.symm, h3.symm, h6.symm, h7.symm⟩

theorem scoreCheck_order_independent_witness :
    [check.mk "a" 60 [cond "yes"] [] [], check.mk "b" (-5) [] [] [],
        check.mk "c" 40 [] [] []].Perm
      [check.mk "c" 40 [] [] [], check.mk "a" 60 [cond "yes"] [] [],
        check.mk "b" (-5) [] [] []] ∧
    (([check.mk "c" 40 [] [] [], check.mk "a" 60 [cond "yes"] [] [],
        check.mk "b" (-5) [] [] []].foldl (scoreCheck evYes) {}).Score
      = ([check.mk "a" 60 [cond "yes"] [] [], check.mk "b" (-5) [] [] [],
        check.mk "c" 40 [] [] []].foldl (scoreCheck evYes) {}).Score ∧
    ([check.mk "c" 40 [] [] [], check.mk "a" 60 [cond "yes"] [] [],
        check.mk "b" (-5) [] [] []].foldl (scoreCheck evYes) {}).Contribs
      = ([check.mk "a" 60 [cond "yes"] [] [], check.mk "b" (-5) [] [] [],
        check.mk "c" 40 [] [] []].foldl (scoreCheck evYes) {}).Contribs ∧
    ([check.mk "c" 40 [] [] [], check.mk "a" 60 [cond "yes"] [] [],
        check.mk "b" (-5) [] [] []].foldl (scoreCheck evYes) {}).Detracts
      = ([check.mk "a" 60 [cond "yes"] [] [], check.mk "b" (-5) [] [] [],
        check.mk "c" 40 [] [] []].foldl (scoreCheck evYes) {}).Detracts ∧
    ([check.mk "c" 40 [] [] [], check.mk "a" 60 [cond "yes"] [] [],
        check.mk "b" (-5) [] [] []].foldl (scoreCheck evYes) {}).Points.Perm
      ([check.mk "a" 60 [cond "yes"] [] [], check.mk "b" (-5) [] [] [],
        check.mk "c" 40 [] [] []].foldl (scoreCheck evYes) {}).Points ∧
    ([check.mk "c" 40 [] [] [], check.mk "a" 60 [cond "yes"] [] [],
        check.mk "b" (-5) [] [] []].foldl (scoreCheck evYes) {}).Penalties.Perm
      ([check.mk "a" 60 [cond "yes"] [] [], check.mk "b" (-5) [] [] [],
        check.mk "c" 40 [] [] []].foldl (scoreCheck evYes) {}).Penalties) :=
  ⟨by decide, scoreCheck_order_independent evYes {} _ _ (by decide)⟩

/-! ## The ledgers -/

theorem scoreCheck_ledgersAgree (ev : Evaluator) (c : check) (im : imageData)
    (h : ledgersAgree im) : ledgersAgree (scoreCheck ev im c) := by
  obtain ⟨h1, h2, h3, h4⟩ := h
  unfold scoreCheck
  by_cases hp : c.Points ≥ 0
  · cases (checkStatus ev c).1
    · simp only [hp, if_true, Bool.false_eq_true, if_false]
      exact ⟨h1, h2, h3, h4⟩
    · simp only [hp, if_true]
      refine ⟨?_, h2, ?_, h4⟩
      · show wrap (im.Contribs + c.Points) = _
        rw [List.map_append, List.sum_append, h1, wrap_add_left]
        simp
      · intro x hx
        rcases List.mem_append.mp hx with hx | hx
        · exact h3 x hx
        · rw [List.mem_singleton.mp hx]
          exact hp
  · cases (checkStatus ev c).1
    · simp only [hp, if_false, Bool.false_eq_true]
      exact ⟨h1, h2, h3, h4⟩
    · simp only [hp, if_false, if_true]
      refine ⟨h1, ?_, h3, ?_⟩
      · show wrap (im.Detracts + c.Points) = _
        rw [List.map_append, List.sum_append, h2, wrap_add_left]
        simp
      · intro x hx
        rcases List.mem_append.mp hx with hx | hx
        · exact h4 x hx
        · rw [List.mem_singleton.mp hx]
          show c.Points < 0
          omega

theorem foldl_scoreCheck_ledgersAgree (ev : Evaluator) (cs : List check) :
    ∀ im : imageData, ledgersAgree im → ledgersAgree (cs.foldl (scoreCheck ev) im) := by
  induction cs with
  | nil =>
    intro im h
    exact h
  | cons c rest ih =>
    intro im h
    exact ih _ (scoreCheck_ledgersAgree ev c im h)

theorem sum_nonneg_of_forall (l : List scoreItem) (h : ∀ x ∈ l, 0 ≤ x.Points) :
    0 ≤ (l.map scoreItem.Points).sum := by
  induction l with
  | nil => simp
  | cons x rest ih =>
    rw [List.map_cons, List.sum_cons]
    have hx := h x (List.mem_cons_self _ _)
    have hr := ih (fun y hy => h y (List.mem_cons_of_mem _ hy))
    omega

theorem sum_nonpos_of_forall (l : List scoreItem) (h : ∀ x ∈ l, x.Points < 0) :
    (l.map scoreItem.Points).sum ≤ 0 := by
  induction l with
  | nil => simp
  | cons x rest ih =>
    rw [List.map_cons, List.sum_cons]
    have hx := h x (List.mem_cons_self _ _)
    have hr := ih (fun y hy => h y (List.mem_cons_of_mem _ hy))
    omega

/-- C20: after a sequential scoring pass Contribs is the sum of the Points
of the items in the Points ledger and Detracts is the sum over the Penalties
ledger, both in Go arithmetic, that is reduced modulo 2^64 into the range of
a Go int; every item of the Points ledger has Points >= 0 and every item of
the Penalties ledger has Points < 0.  When the sum of the Points ledger does
not exceed MaxInt64, Contribs is that exact sum and Contribs >= 0; when the
sum of the Penalties ledger is not below MinInt64, Detracts is that exact
sum and Detracts <= 0. -/
theorem sequentialPass_ledgers_wrapped (ev : Evaluator) (cs : List check) :
    ∃ cs' im, sequentialPass ev cs = some (cs', im) ∧
      im.Contribs = wrap (im.Points.map scoreItem.Points).sum ∧
      im.Detracts = wrap (im.Penalties.map scoreItem.Points).sum ∧
      (∀ x ∈ im.Points, 0 ≤ x.Points) ∧ (∀ x ∈ im.Penalties, x.Points < 0) ∧
      ((im.Points.map scoreItem.Points).sum ≤ maxInt →
        im.Contribs = (im.Points.map scoreItem.Points).sum ∧ 0 ≤ im.Contribs) ∧
      (minInt ≤ (im.Penalties.map scoreItem.Points).sum →
        im.Detracts = (im.Penalties.map scoreItem.Points).sum ∧ im.Detracts ≤ 0) := by
  obtain ⟨cs', im', hrun, _, _, hc, hd, hp, hn⟩ :=
    assignPoints_total cs {} empty_totalPoints_bounds.1 empty_totalPoints_bounds.2
  have h0 : ledgersAgree im' := by
    refine ⟨?_, ?_, ?_, ?_⟩
    · rw [hc, hp]
      decide
    · rw [hd, hn]
      decide
    · rw [hp]
      intro x hx
      cases hx
    · rw [hn]
      intro x hx
      cases hx
  obtain ⟨k1, k2, k3, k4⟩ := foldl_scoreCheck_ledgersAgree ev cs' im' h0
  have s1 := sum_nonneg_of_forall _ k3
  have s2 := sum_nonpos_of_forall _ k4
  refine ⟨cs', cs'.foldl (scoreCheck ev) im', ?_, k1, k2, k3, k4, ?_, ?_⟩
  · simp only [sequentialPass, hrun]
  · intro hle
    have he := wrap_eq_self _ (show minInt ≤ _ by unfold minInt; omega) hle
    rw [k1, he]
    exact ⟨rfl, s1⟩
  · intro hge
    have he := wrap_eq_self _ hge (show _ ≤ maxInt by unfold maxInt; omega)
    rw [k2, he]
    exact ⟨rfl, s2⟩

/-- On [{Points:MaxInt64},{Points:1}] with both checks passing the Points
ledger sums to 2^63 while Contribs has wrapped to MinInt64, which is
negative. -/
theorem sequentialPass_ledgers_overflow :
    sequentialPass evYes [pts maxInt, pts 1] =
      some ([pts maxInt, pts 1],
        { Score := minInt, Contribs := minInt, TotalPoints := minInt, ScoredVulns := 2,
          Points := [⟨"", maxInt⟩, ⟨"", 1⟩] }) ∧
    minInt ≠ (([⟨"", maxInt⟩, ⟨"", 1⟩] : List scoreItem).map scoreItem.Points).sum ∧
    minInt < 0 := by
  decide

end Aeacus
